import Mathlib

/-!
Verification of the batch source-code patcher (fix_exhaustive_deps.py /
fix_all_eslint.py).  The pure string-rewriting core of the scripts is
embedded over `List Char`; Python's `str.find`, the `in` operator,
`str.replace`, `str.strip` and the specific regular expressions used by the
scripts are modelled character by character.

Conventions: text is `Str := List Char`.  The two regular expressions of the
source are fixed-shape patterns; their backtracking search collapses to a
deterministic scan that is reproduced here.  The `funcName` interpolated into
the useEffect pattern is a plain identifier at every call site of the script
(see the FIXES table), under which assumption the literal splice into the
pattern is an exact model.
-/

namespace EslintFix

abbrev Str := List Char

/-- Left brace character, written via its code point. -/
def lb : Char := Char.ofNat 123

/-- Right brace character. -/
def rb : Char := Char.ofNat 125

/-- Apostrophe (single quote) character. -/
def apos : Char := Char.ofNat 39

/-- Backslash character. -/
def bs : Char := Char.ofNat 92

/-- Newline character. -/
def nl : Char := Char.ofNat 10

/-- Boolean test that `a` is a prefix of `s`. -/
def pfx : Str → Str → Bool
  | [], _ => true
  | _ :: _, [] => false
  | a :: as, b :: bs' => if a = b then pfx as bs' else false

/-- Leftmost occurrence index of `pat` in a text, as Python `str.find`. -/
def strFind (pat : Str) : Str → Option Nat
  | [] => if pfx pat [] = true then some 0 else none
  | c :: rest =>
    if pfx pat (c :: rest) = true then some 0
    else (strFind pat rest).map (fun n => n + 1)

/-- Python's `pat in s` substring test. -/
def containsStr (s pat : Str) : Bool := (strFind pat s).isSome

/-- Fuelled worker for `replaceAll`; the fuel dominates the text length, so
the fuel-exhausted branch is never reached in `replaceAll`. -/
def replaceAllF (old new : Str) : Nat → Str → Str
  | _, [] => []
  | 0, s => s
  | fuel + 1, c :: rest =>
    if old ≠ [] ∧ pfx old (c :: rest) = true then
      new ++ replaceAllF old new fuel (rest.drop (old.length - 1))
    else
      c :: replaceAllF old new fuel rest

/-- Python `str.replace`: replace every non-overlapping occurrence of `old`
by `new`, scanning left to right.  (The scripts never call it with an empty
`old`; on empty `old` this model is the identity.) -/
def replaceAll (old new s : Str) : Str := replaceAllF old new s.length s

/-- Python whitespace (the characters removed by `str.strip`). -/
def pyWs (c : Char) : Bool :=
  (c = ' ') || (c = Char.ofNat 9) || (c = nl) || (c = Char.ofNat 13) ||
  (c = Char.ofNat 11) || (c = Char.ofNat 12)

/-- Python `str.strip`. -/
def strip (s : Str) : Str :=
  ((s.dropWhile pyWs).reverse.dropWhile pyWs).reverse

/-- Index of the first occurrence of character `c`. -/
def findCharIdx (c : Char) : Str → Option Nat
  | [] => none
  | a :: rest => if a = c then some 0 else (findCharIdx c rest).map (fun n => n + 1)

/-- First index `≥ q` holding character `c` in `t`. -/
def findCharFrom (t : Str) (c : Char) (q : Nat) : Option Nat :=
  (findCharIdx c (t.drop q)).map (fun n => n + q)

/-- Half-open slice `t[a:b]`. -/
def slice (t : Str) (a b : Nat) : Str := (t.drop a).take (b - a)

/-- Python `", ".join`. -/
def joinComma : List Str → Str
  | [] => []
  | [d] => d
  | d :: d' :: ds => d ++ (", ".toList ++ joinComma (d' :: ds))

/-- The brace-counting loop of `wrap_function_with_callback` (the
DelimiterScanner of the specification): depth counter incremented on every
open brace, decremented on every close brace; the first close brace at which
an entered scan returns the counter to zero is reported. -/
def fmcLoop : Str → Nat → Int → Bool → Option Nat
  | [], _, _, _ => none
  | ch :: rest, i, cnt, inFn =>
    if ch = lb then fmcLoop rest (i + 1) (cnt + 1) true
    else if ch = rb then
      if inFn ∧ cnt - 1 = 0 then some i
      else fmcLoop rest (i + 1) (cnt - 1) inFn
    else fmcLoop rest (i + 1) cnt inFn

/-- `findMatchingClose text start`: offset of the balanced closing brace, or
`none` (NotFound) when the end of text is reached first. -/
def findMatchingClose (t : Str) (start : Nat) : Option Nat :=
  fmcLoop (t.drop start) start 0 false

/-- The raw pattern string `const <fn> = async \(\) => \{` built by
`wrap_function_with_callback` (an f-string of a regular expression; the
backslashes are characters of the string). -/
def rawPattern (fn : Str) : Str :=
  "const ".toList ++ fn ++ (" = async ".toList ++ ([bs, '(', bs, ')'] ++ (" => ".toList ++ [bs, lb])))

/-- The anchor `const <fn> = async` searched with `str.find`. -/
def anchorOf (fn : Str) : Str := "const ".toList ++ fn ++ " = async".toList

/-- Embedding of `wrap_function_with_callback(content, func_name, deps)`.
Note the source tests the raw regex pattern string with the substring
operator `in`, so the backslashes are required to occur literally. -/
def wrap_function_with_callback (content fn : Str) (deps : List Str) : Str :=
  if containsStr content (rawPattern fn) = true then
    match strFind (anchorOf fn) content with
    | none => content
    | some start =>
      match findMatchingClose content start with
      | none => content
      | some i =>
        let endIdx := i + 1
        let funcText := slice content start endIdx
        let depsStr := joinComma deps
        let tailPart :=
          match strFind ("=> ".toList ++ [lb]) funcText with
          | some j => funcText.drop (j + 3)
          | none => funcText.drop 2
        let newFunc := "const ".toList ++ fn ++ " = useCallback(async () => ".toList ++
          tailPart ++ ", [".toList ++ depsStr ++ "]);".toList
        let after := content.drop endIdx
        let after2 :=
          match findCharIdx ';' after with
          | some k => after.drop (k + 1)
          | none => after
        content.take start ++ newFunc ++ after2
  else content

/-- The literal head of the React import pattern: `import React, { `. -/
def lit1I : Str := "import React, ".toList ++ [lb, ' ']

/-- The literal tail of the React import pattern: ` } from 'react';`. -/
def tailI : Str := [' ', rb] ++ " from ".toList ++ [apos] ++ "react".toList ++ [apos, ';']

/-- The symbol `useCallback`. -/
def ucSym : Str := "useCallback".toList

/-- Deterministic model of matching `import React, \{ ([^}]+) \} from 'react';`
at position `p`: the greedy one-or-more group of non-close-brace characters
forces the close brace of the pattern to be the first close brace after the
head, preceded by a space.  Returns the captured group. -/
def matchImportAt (t : Str) (p : Nat) : Option Str :=
  if pfx lit1I (t.drop p) = true then
    match findCharFrom t rb (p + 16) with
    | none => none
    | some H =>
      if p + 18 ≤ H ∧ pfx tailI (t.drop (H - 1)) = true then
        some (slice t (p + 16) (H - 1))
      else none
  else none

/-- Scan of `re.search` for the import pattern: positions tried left to
right, first match returned with its position. -/
def searchImportAux (t : Str) : Nat → Nat → Option (Nat × Str)
  | 0, _ => none
  | fuel + 1, p =>
    match matchImportAt t p with
    | some g => some (p, g)
    | none => if p < t.length then searchImportAux t fuel (p + 1) else none

/-- `re.search` of the React import pattern over the whole text. -/
def searchImport (t : Str) : Option (Nat × Str) :=
  searchImportAux t (t.length + 1) 0

/-- Embedding of `add_use_callback_import(content)`. -/
def add_use_callback_import (content : Str) : Str :=
  if containsStr content ucSym = true then content
  else
    match searchImport content with
    | none => content
    | some (_, imports) =>
      if containsStr imports ucSym = true then content
      else
        replaceAll (lit1I ++ imports ++ tailI)
          (lit1I ++ imports ++ (", useCallback".toList ++ tailI)) content

/-- The literal head of the useEffect pattern: `useEffect(() => {`. -/
def litUE : Str := "useEffect(() => ".toList ++ [lb]

/-- Deterministic model of matching
`useEffect\(\(\) => \{[^}]*<fn>\(\);[^}]*\}, \[[^\]]*\]\);` at position `p`
(`fn` spliced literally; exact for identifier `fn`).  The two `[^}]*` groups
force the close brace of the pattern to be the first close brace after the
head, and the call `<fn>();` must occur before it; the `[^\]]*` group forces
the close bracket to be the first one after the open bracket.  Returns the
end offset of the match. -/
def matchUEAt (t fn : Str) (p : Nat) : Option Nat :=
  if pfx litUE (t.drop p) = true then
    match findCharFrom t rb (p + 17) with
    | none => none
    | some h =>
      if containsStr (slice t (p + 17) h) (fn ++ "();".toList) = true then
        if pfx ([rb] ++ ", [".toList) (t.drop h) = true then
          match findCharFrom t ']' (h + 4) with
          | none => none
          | some v => if pfx "]);".toList (t.drop v) = true then some (v + 3) else none
        else none
      else none
  else none

/-- `re.finditer` for the useEffect pattern: leftmost non-overlapping
matches, each search resuming at the end of the previous match.  Returns the
matched substrings. -/
def finditerAux (t fn : Str) : Nat → Nat → List Str
  | 0, _ => []
  | fuel + 1, p =>
    if p ≤ t.length then
      match matchUEAt t fn p with
      | some e => slice t p e :: finditerAux t fn fuel e
      | none => finditerAux t fn fuel (p + 1)
    else []

/-- All matches of the useEffect pattern in `t`. -/
def finditerUE (t fn : Str) : List Str :=
  finditerAux t fn (t.length + 1) 0

/-- Model of `re.search(r'\[([^\]]*)\]', e)`: the group of the leftmost
bracketed segment, i.e. from the first open bracket to the first close
bracket after it. -/
def depsSearch (e : Str) : Option Str :=
  match findCharIdx '[' e with
  | none => none
  | some i =>
    match findCharFrom e ']' (i + 1) with
    | none => none
    | some j => some (slice e (i + 1) j)

/-- The body of the per-match loop of `add_deps_to_useeffect`: parse the
first bracketed list of the matched text, and if `fn` is not a substring of
its stripped content, append it and substitute, first inside the matched
text, then substituting the old matched text throughout the content. -/
def processMatch (fn content e : Str) : Str :=
  match depsSearch e with
  | none => content
  | some g =>
    if containsStr (strip g) fn = true then content
    else
      replaceAll e
        (replaceAll ('[' :: (strip g ++ [']']))
          ('[' :: ((if strip g ≠ [] then strip g ++ (", ".toList ++ fn) else fn) ++ [']'])) e)
        content

/-- Embedding of `add_deps_to_useeffect(content, func_name)`: matches are
collected on the original content, then processed in order against the
running content. -/
def add_deps_to_useeffect (content fn : Str) : Str :=
  (finditerUE content fn).foldl (fun cur e => processMatch fn cur e) content

/-- The literal middle piece `(); }, [` of a well-formed block. -/
def ueMid : Str := "(); ".toList ++ ([rb] ++ ", [".toList)

/-- The literal end piece `]);` of a well-formed block. -/
def ueEnd : Str := "]);".toList

/-- A well-formed single useEffect block
`useEffect(() => {<body><fn>(); }, [<deps>]);`. -/
def ueBlock (body fn deps : Str) : Str :=
  litUE ++ (body ++ (fn ++ (ueMid ++ (deps ++ ueEnd))))

/-- The dependency list after appending `fn` (empty list becomes `fn`). -/
def joinDeps (deps fn : Str) : Str :=
  if deps ≠ [] then deps ++ (", ".toList ++ fn) else fn

/-- The segment scanned by the `[^}]*<fn>\(\);` part of the useEffect
pattern: from `q` up to the first close brace (empty when there is none, in
which case the pattern cannot match at all). -/
def bodySegAt (t : Str) (q : Nat) : Str :=
  match findCharFrom t rb q with
  | none => []
  | some h => slice t q h

/-- Identifier characters (the function names of the FIXES table). -/
def isIdentChar (c : Char) : Bool := c.isAlpha || c.isDigit || c = '_'

/-- A nonempty identifier. -/
def isIdentStr (fn : Str) : Bool := (decide (fn ≠ [])) && fn.all isIdentChar

/-- Balance check for the delimiter scan: depth never negative, final depth
zero (braces only; other characters ignored). -/
def balAux : Str → Int → Bool
  | [], d => d = 0
  | c :: r, d =>
    let d' := if c = lb then d + 1 else if c = rb then d - 1 else d
    (decide (0 ≤ d')) && balAux r d'

/-- A text whose brace pairs are balanced. -/
def balancedBraces (s : Str) : Bool := balAux s 0

/-- A rewrite rule of `fix_all_eslint.py`: a literal substring replacement,
or a compiled-pattern substitution abstracted as the text transformation it
performs. -/
inductive Rule where
  | lit (pat repl : Str)
  | sub (f : Str → Str)

/-- Application of one rule to the running buffer. -/
def applyRule (c : Str) : Rule → Str
  | Rule.lit p r => replaceAll p r c
  | Rule.sub f => f c

/-- The final buffer of `fix_file` after the sequential rule pass. -/
def fixFinal (rules : List Rule) (orig : Str) : Str :=
  rules.foldl applyRule orig

/-- Embedding of `fix_file`: first component is the content written back
(`none` when no write happens), second is the returned flag. -/
def fix_file (rules : List Rule) (orig : Str) : Option Str × Bool :=
  let c := fixFinal rules orig
  if c ≠ orig then (some c, true) else (none, false)

/-- One entry of the FIXES table. -/
structure Fix where
  name : Str
  deps : List Str

/-- One iteration of the fix loop of `process_file`. -/
def applyFix (c : Str) (fx : Fix) : Str :=
  add_deps_to_useeffect (wrap_function_with_callback c fx.name fx.deps) fx.name

/-- The final buffer of `process_file` before the write-back decision. -/
def processFinal (fixes : List Fix) (orig : Str) : Str :=
  (fixes.foldl applyFix (add_use_callback_import orig))

/-- Embedding of `process_file`: the content written back, or `none` when
the final content equals the original and no write happens. -/
def process_file (fixes : List Fix) (orig : Str) : Option Str :=
  let c := processFinal fixes orig
  if c ≠ orig then some c else none

/-- The input of example scenario 1 of the specification:
`const loadX = async () => { fetchA(); };`. -/
def c1input : Str :=
  "const loadX = async () => ".toList ++ ([lb] ++ (" fetchA(); ".toList ++ [rb, ';']))

/-- The output example scenario 1 claims (with `useCallback` as the
memoization wrapper): `const loadX = useCallback(async () => { fetchA(); }, [userId]);`. -/
def c1claimed : Str :=
  "const loadX = useCallback(async () => ".toList ++
    ([lb] ++ (" fetchA(); ".toList ++ ([rb] ++ ", [userId]);".toList)))

/-- A text containing the raw pattern characters (backslashes included)
followed by an opening brace that is never closed. -/
def c6input : Str :=
  "const f = async ".toList ++ ([bs, '(', bs, ')'] ++ (" => ".toList ++ [bs, lb]))

/-- A useEffect block whose dependency list is written with inner padding:
`useEffect(() => { loadX(); }, [ userId ]);`. -/
def c3cexInput : Str :=
  litUE ++ (" loadX(); ".toList ++ ([rb] ++ ", [ userId ]);".toList))

/-- The block `useEffect(() => { f(); }, [x]);`. -/
def eBlk : Str := litUE ++ (" f(); ".toList ++ ([rb] ++ ", [x]);".toList))

/-- A text on which `add_deps_to_useeffect` is not idempotent: a copy of
`eBlk`, then a second matched block whose body holds a bracketed segment
`a[y]` followed by another copy of `eBlk`.  Replacing all occurrences of the
first match rewrites the trailing copy, so the second match's substitution
finds nothing to replace on the first run and fires on the second. -/
def c4T : Str := eBlk ++ (litUE ++ (" a[y] ".toList ++ eBlk))

/-- A useEffect block with a nested close brace before the call:
`useEffect(() => { if (a) { b(); } loadX(); }, [u]);`. -/
def c9winput : Str :=
  litUE ++ (" if (a) ".toList ++ ([lb] ++ (" b(); ".toList ++
    ([rb] ++ (" loadX(); ".toList ++ ([rb] ++ ", [u]);".toList))))))

/-- A full React import line with the given member names. -/
def impLine (names : Str) : Str := lit1I ++ (names ++ tailI)

/-- A file body with one React import line and no `useCallback`. -/
def c7winput : Str := impLine "useState, useEffect".toList ++ ([nl] ++ "body".toList)

/-- A text holding the symbol `useCallback`. -/
def c7winput2 : Str := "const useCallback = 1;".toList

/-- Two identical React import lines. -/
def c10cexInput : Str := impLine "useState".toList ++ ([nl] ++ impLine "useState".toList)

/-- The balanced interior ` a { b } c ` of example scenario 4. -/
def c5A : Str := " a ".toList ++ ([lb] ++ (" b ".toList ++ ([rb] ++ " c ".toList)))

/-! Generic lemmas about the string primitives. -/

theorem pfx_iff (a : Str) : ∀ s : Str, pfx a s = true ↔ ∃ t, s = a ++ t := by
  induction a with
  | nil => intro s; simp [pfx]
  | cons x as ih =>
    intro s
    cases s with
    | nil =>
      simp only [pfx]
      constructor
      · intro h; cases h
      · rintro ⟨t, ht⟩; cases ht
    | cons b bs' =>
      by_cases hx : x = b
      · subst hx
        simp only [pfx, if_true, eq_self_iff_true, ih, List.cons_append,
          List.cons.injEq, true_and]
      · simp only [pfx, if_neg hx, List.cons_append, List.cons.injEq]
        constructor
        · intro h; cases h
        · rintro ⟨t, ht, _⟩; exact absurd ht.symm hx

theorem pfx_of_append (a t : Str) : pfx a (a ++ t) = true :=
  (pfx_iff a _).mpr ⟨t, rfl⟩

theorem pfx_rfl (a : Str) : pfx a a = true := by
  have := pfx_of_append a []
  simpa using this

theorem pfx_nil_right (a : Str) : pfx a [] = true ↔ a = [] := by
  cases a with
  | nil => simp [pfx]
  | cons x as =>
    simp only [pfx]
    constructor
    · intro h; cases h
    · intro h; cases h

theorem pfx_false_of_ne_nil (a : Str) (h : a ≠ []) : pfx a [] = false := by
  cases hp : pfx a [] with
  | false => rfl
  | true => exact absurd ((pfx_nil_right a).mp hp) h

theorem pfx_take (l : Str) (n : Nat) : pfx (l.take n) l = true :=
  (pfx_iff _ _).mpr ⟨l.drop n, (List.take_append_drop n l).symm⟩

theorem pfx_append_of (a b s : Str) (h1 : pfx a s = true)
    (h2 : pfx b (s.drop a.length) = true) : pfx (a ++ b) s = true := by
  obtain ⟨u, rfl⟩ := (pfx_iff a s).mp h1
  rw [List.drop_left] at h2
  obtain ⟨w, rfl⟩ := (pfx_iff b u).mp h2
  exact (pfx_iff _ _).mpr ⟨w, by simp⟩

theorem pfx_length_le (a s : Str) (h : pfx a s = true) : a.length ≤ s.length := by
  obtain ⟨u, rfl⟩ := (pfx_iff a s).mp h
  simp

theorem pfx_getElem (a s : Str) (h : pfx a s = true) (i : Nat) (hi : i < a.length) :
    s[i]? = a[i]? := by
  obtain ⟨u, rfl⟩ := (pfx_iff a s).mp h
  simp [List.getElem?_append, hi]

theorem containsStr_cons (c : Char) (s pat : Str) :
    containsStr (c :: s) pat = (pfx pat (c :: s) || containsStr s pat) := by
  unfold containsStr
  rw [strFind]
  by_cases h : pfx pat (c :: s) = true
  · simp [h]
  · simp only [h, if_false, Bool.false_or]
    cases strFind pat s <;> simp

theorem containsStr_iff (s pat : Str) :
    containsStr s pat = true ↔ ∃ u v, s = u ++ (pat ++ v) := by
  induction s with
  | nil =>
    by_cases h : pfx pat [] = true
    · have hp := (pfx_nil_right pat).mp h
      subst hp
      constructor
      · intro _; exact ⟨[], [], rfl⟩
      · intro _; decide
    · constructor
      · intro hc
        exfalso
        unfold containsStr at hc
        rw [strFind, if_neg h] at hc
        simp at hc
      · rintro ⟨u, v, huv⟩
        exfalso
        have hpat : pat = [] := by
          rcases List.append_eq_nil.mp huv.symm with ⟨_, h2⟩
          exact (List.append_eq_nil.mp h2).1
        exact h ((pfx_nil_right pat).mpr hpat)
  | cons c s' ih =>
    rw [containsStr_cons]
    constructor
    · intro h
      rcases Bool.or_eq_true_iff.mp h with h1 | h2
      · obtain ⟨t, ht⟩ := (pfx_iff pat _).mp h1
        exact ⟨[], t, by simpa using ht⟩
      · obtain ⟨u, v, huv⟩ := ih.mp h2
        exact ⟨c :: u, v, by simp [huv]⟩
    · rintro ⟨u, v, huv⟩
      cases u with
      | nil =>
        apply Bool.or_eq_true_iff.mpr
        exact Or.inl ((pfx_iff pat _).mpr ⟨v, by simpa using huv⟩)
      | cons x u' =>
        apply Bool.or_eq_true_iff.mpr
        refine Or.inr (ih.mpr ⟨u', v, ?_⟩)
        have := huv
        simp only [List.cons_append] at this
        exact (List.cons.injEq _ _ _ _).mp this |>.2

theorem containsStr_of_parts (s pat u v : Str) (h : s = u ++ (pat ++ v)) :
    containsStr s pat = true :=
  (containsStr_iff s pat).mpr ⟨u, v, h⟩

theorem mem_of_containsStr (s pat : Str) (c : Char) (h : containsStr s pat = true)
    (hc : c ∈ pat) : c ∈ s := by
  obtain ⟨u, v, rfl⟩ := (containsStr_iff s pat).mp h
  simp [hc]

theorem containsStr_mono_mid (u mid v pat : Str) (h : containsStr mid pat = true) :
    containsStr (u ++ (mid ++ v)) pat = true := by
  obtain ⟨a, b, rfl⟩ := (containsStr_iff mid pat).mp h
  exact containsStr_of_parts _ _ (u ++ a) (b ++ v) (by simp)

theorem replaceAllF_fuel (old new : Str) : ∀ (f1 : Nat), ∀ (f2 : Nat) (s : Str),
    s.length ≤ f1 → s.length ≤ f2 →
    replaceAllF old new f1 s = replaceAllF old new f2 s := by
  intro f1
  induction f1 with
  | zero =>
    intro f2 s h1 _
    have hs : s = [] := List.length_eq_zero.mp (Nat.le_zero.mp h1)
    subst hs
    cases f2 <;> rfl
  | succ f1 ih =>
    intro f2 s h1 h2
    cases s with
    | nil => cases f2 <;> rfl
    | cons c rest =>
      cases f2 with
      | zero => simp at h2
      | succ f2 =>
        rw [replaceAllF, replaceAllF]
        by_cases hc : old ≠ [] ∧ pfx old (c :: rest) = true
        · rw [if_pos hc, if_pos hc]
          congr 1
          apply ih
          · have := List.length_drop (old.length - 1) rest
            simp only [List.length_cons] at h1
            omega
          · have := List.length_drop (old.length - 1) rest
            simp only [List.length_cons] at h2
            omega
        · rw [if_neg hc, if_neg hc]
          congr 1
          apply ih
          · simp only [List.length_cons] at h1
            omega
          · simp only [List.length_cons] at h2
            omega

theorem replaceAll_cons_fire (old new : Str) (c : Char) (rest : Str) (h1 : old ≠ [])
    (h2 : pfx old (c :: rest) = true) :
    replaceAll old new (c :: rest) = new ++ replaceAll old new (rest.drop (old.length - 1)) := by
  unfold replaceAll
  rw [List.length_cons, replaceAllF, if_pos ⟨h1, h2⟩]
  congr 1
  apply replaceAllF_fuel
  · have := List.length_drop (old.length - 1) rest
    omega
  · exact Nat.le_refl _

theorem replaceAll_fire (old new S : Str) (h : old ≠ []) :
    replaceAll old new (old ++ S) = new ++ replaceAll old new S := by
  cases old with
  | nil => exact absurd rfl h
  | cons c old' =>
    have h2 : pfx (c :: old') (c :: (old' ++ S)) = true := by
      have := pfx_of_append (c :: old') S
      simpa using this
    rw [List.cons_append, replaceAll_cons_fire (c :: old') new c (old' ++ S) h h2]
    have h3 : (old' ++ S).drop ((c :: old').length - 1) = S := by
      simp [List.drop_left]
    rw [h3]

theorem replaceAll_skip_head (old new : Str) (c : Char) (rest : Str)
    (h : ¬ pfx old (c :: rest) = true) :
    replaceAll old new (c :: rest) = c :: replaceAll old new rest := by
  unfold replaceAll
  rw [List.length_cons, replaceAllF, if_neg (fun hc => h hc.2)]

theorem replaceAll_nil (old new : Str) : replaceAll old new [] = [] := rfl

theorem replaceAll_noocc (old new : Str) : ∀ s : Str,
    (∀ k, ¬ pfx old (s.drop k) = true) → replaceAll old new s = s := by
  intro s
  induction s with
  | nil => intro _; exact replaceAll_nil old new
  | cons c rest ih =>
    intro h
    rw [replaceAll_skip_head old new c rest (by have := h 0; simpa using this)]
    have hr : ∀ k, ¬ pfx old (rest.drop k) = true := by
      intro k
      have := h (k + 1)
      simpa using this
    rw [ih hr]

theorem replaceAll_append_noocc (old new : Str) : ∀ (P rest : Str),
    (∀ k, k < P.length → ¬ pfx old ((P ++ rest).drop k) = true) →
    replaceAll old new (P ++ rest) = P ++ replaceAll old new rest := by
  intro P
  induction P with
  | nil => intro rest _; rfl
  | cons x P' ih =>
    intro rest h
    rw [List.cons_append, replaceAll_skip_head old new x (P' ++ rest)
      (by have := h 0 (by simp); simpa using this)]
    rw [ih rest (fun k hk => by have := h (k + 1) (by simpa using hk); simpa using this)]
    simp

theorem replaceAll_contains_new (old new : Str) (h : old ≠ []) :
    ∀ (u v : Str), ∃ x y, replaceAll old new (u ++ (old ++ v)) = x ++ (new ++ y) := by
  intro u
  induction u with
  | nil =>
    intro v
    refine ⟨[], replaceAll old new v, ?_⟩
    simpa using replaceAll_fire old new v h
  | cons a u' ih =>
    intro v
    by_cases hc : pfx old (a :: (u' ++ (old ++ v))) = true
    · refine ⟨[], replaceAll old new ((u' ++ (old ++ v)).drop (old.length - 1)), ?_⟩
      rw [List.cons_append, replaceAll_cons_fire old new a _ h hc]
      simp
    · rw [List.cons_append, replaceAll_skip_head old new a _ hc]
      obtain ⟨x, y, hxy⟩ := ih v
      exact ⟨a :: x, y, by rw [hxy]; simp⟩

theorem findCharIdx_append (ch : Char) (a b : Str) (h : ∀ x ∈ a, x ≠ ch) :
    findCharIdx ch (a ++ b) = (findCharIdx ch b).map (fun n => n + a.length) := by
  induction a with
  | nil =>
    cases hb : findCharIdx ch b <;> simp [hb]
  | cons x a' ih =>
    have hx : ¬ x = ch := h x (by simp)
    rw [List.cons_append, findCharIdx, if_neg hx,
      ih (fun y hy => h y (by simp [hy]))]
    cases hb : findCharIdx ch b
    · simp
    · simp only [Option.map_some', List.length_cons, Option.some.injEq]
      omega

theorem findCharIdx_cons_self (ch : Char) (r : Str) :
    findCharIdx ch (ch :: r) = some 0 := by
  rw [findCharIdx, if_pos rfl]

theorem take_len_append (a : Str) : ∀ (b : Str) (m : Nat),
    (a ++ b).take (a.length + m) = a ++ b.take m := by
  induction a with
  | nil => intro b m; simp
  | cons x a' ih =>
    intro b m
    simp only [List.cons_append, List.length_cons]
    rw [Nat.succ_add, List.take_succ_cons, ih b m]

theorem mem_of_mem_drop (x : Char) (l : Str) (k : Nat) (h : x ∈ l.drop k) : x ∈ l := by
  have ht := List.take_append_drop k l
  rw [← ht]
  exact List.mem_append.mpr (Or.inr h)

theorem dwLenLe (p : Char → Bool) : ∀ l : Str, (l.dropWhile p).length ≤ l.length := by
  intro l
  induction l with
  | nil => simp
  | cons c r ih =>
    by_cases hc : p c = true
    · rw [List.dropWhile_cons_of_pos hc]
      simp only [List.length_cons]
      omega
    · rw [List.dropWhile_cons_of_neg hc]

theorem dropWhile_len_eq (p : Char → Bool) : ∀ l : Str,
    (l.dropWhile p).length = l.length → l.dropWhile p = l := by
  intro l
  induction l with
  | nil => intro _; rfl
  | cons c r ih =>
    intro h
    by_cases hc : p c = true
    · rw [List.dropWhile_cons_of_pos hc] at h
      have := dwLenLe p r
      simp only [List.length_cons] at h
      omega
    · rw [List.dropWhile_cons_of_neg hc]

theorem strip_drops (s : Str) :
    strip s = ((s.dropWhile pyWs).reverse.dropWhile pyWs).reverse := rfl

theorem strip_eq_self_head (s : Str) (h : strip s = s) :
    s.dropWhile pyWs = s := by
  have h1 : (((s.dropWhile pyWs).reverse.dropWhile pyWs).reverse).length = s.length := by
    rw [← strip_drops, h]
  have h2 : (s.dropWhile pyWs).length ≤ s.length := dwLenLe pyWs s
  have h3 : (((s.dropWhile pyWs).reverse).dropWhile pyWs).length ≤ (s.dropWhile pyWs).length := by
    have := dwLenLe pyWs (s.dropWhile pyWs).reverse
    simpa using this
  rw [List.length_reverse] at h1
  exact dropWhile_len_eq pyWs s (by omega)

theorem strip_eq_self_rev (s : Str) (h : strip s = s) :
    s.reverse.dropWhile pyWs = s.reverse := by
  have hh := strip_eq_self_head s h
  rw [strip_drops, hh] at h
  have : (s.reverse.dropWhile pyWs).reverse.reverse = s.reverse := by rw [h]
  simpa using this

theorem strip_of_ends (s : Str) (hh : s.dropWhile pyWs = s)
    (hr : s.reverse.dropWhile pyWs = s.reverse) : strip s = s := by
  rw [strip_drops, hh, hr, List.reverse_reverse]

theorem dropWhile_eq_self_of_head (p : Char → Bool) (c : Char) (r : Str)
    (hc : ¬ p c = true) : (c :: r).dropWhile p = c :: r :=
  List.dropWhile_cons_of_neg hc

theorem head_not_ws_of_strip (s : Str) (c : Char) (r : Str) (h : strip s = s)
    (hs : s = c :: r) : pyWs c = false := by
  subst hs
  have hd := strip_eq_self_head _ h
  by_cases hc : pyWs c = true
  · exfalso
    rw [List.dropWhile_cons_of_pos hc] at hd
    have hl := dwLenLe pyWs r
    have hlen := congrArg List.length hd
    simp only [List.length_cons] at hlen
    omega
  · simpa using hc

/-! DelimiterScanner: the depth-counted balanced scan. -/

theorem fmcLoop_balanced (A : Str) : ∀ (B : Str) (i : Nat) (d : Int), balAux A d = true →
    fmcLoop (A ++ B) i (d + 1) true = fmcLoop B (i + A.length) 1 true := by
  induction A with
  | nil =>
    intro B i d h
    have hd : d = 0 := by
      have := h
      unfold balAux at this
      simpa using this
    subst hd
    simp
  | cons c r ih =>
    intro B i d h
    unfold balAux at h
    rcases Bool.and_eq_true_iff.mp h with ⟨h0, hr⟩
    by_cases hlb : c = lb
    · subst hlb
      rw [List.cons_append, fmcLoop, if_pos rfl]
      rw [if_pos rfl] at hr
      rw [ih B (i + 1) (d + 1) hr]
      congr 1
      simp only [List.length_cons]
      omega
    · by_cases hrb : c = rb
      · subst hrb
        have hlbne : ¬ rb = lb := by decide
        rw [List.cons_append, fmcLoop, if_neg hlbne, if_pos rfl]
        rw [if_neg hlbne, if_pos rfl] at h0 hr
        have hd1 : (0 : Int) ≤ d - 1 := by simpa using h0
        rw [if_neg (by rintro ⟨_, habs⟩; omega)]
        have hstep := ih B (i + 1) (d - 1) hr
        have harith : d + 1 - 1 = d - 1 + 1 := by omega
        rw [harith, hstep]
        congr 1
        simp only [List.length_cons]
        omega
      · rw [List.cons_append, fmcLoop, if_neg hlb, if_neg hrb]
        rw [if_neg hlb, if_neg hrb] at hr
        rw [ih B (i + 1) d hr]
        congr 1
        simp only [List.length_cons]
        omega

/-- C5: on a text whose brace pairs are balanced from the scan start, the
depth-counted scan returns the offset of the close brace at which the depth
counter returns to zero, skipping nested balanced pairs: scanning
`{ <A> } <rest>` from offset 0 yields the offset `A.length + 1` of the close
brace matching the first open brace, for every balanced interior `A`. -/
theorem C5_scan_balanced (A rest : Str) (h : balancedBraces A = true) :
    findMatchingClose (lb :: (A ++ (rb :: rest))) 0 = some (A.length + 1) := by
  unfold findMatchingClose
  rw [List.drop_zero, fmcLoop, if_pos rfl]
  have hb : balAux A 0 = true := h
  have hstep := fmcLoop_balanced A (rb :: rest) 1 0 hb
  simp only [zero_add] at hstep ⊢
  rw [hstep, fmcLoop, if_neg (by decide : ¬ rb = lb), if_pos rfl,
    if_pos ⟨rfl, by decide⟩]
  congr 1
  omega

/-- Witness for C5 at example scenario 4: the text `{ a { b } c }` scanned
from offset 0 yields offset 12, the final close brace, skipping the inner
pair. -/
theorem C5_witness : findMatchingClose (lb :: (c5A ++ (rb :: []))) 0 = some 12 := by
  have h := C5_scan_balanced c5A [] (by decide)
  have hl : c5A.length + 1 = 12 := by decide
  rw [hl] at h
  exact h

/-! FunctionTransformer: wrap_function_with_callback. -/

/-- C2: whenever the raw pattern string (backslashes included) does not
occur as a substring of the text, `wrap_function_with_callback` returns the
text unchanged; in particular this holds for every text containing no
backslash character at all. -/
theorem C2_wrap_unchanged_without_raw_pattern (content fn : Str) (deps : List Str) :
    (containsStr content (rawPattern fn) = false →
      wrap_function_with_callback content fn deps = content) ∧
    (bs ∉ content → wrap_function_with_callback content fn deps = content) := by
  have main : containsStr content (rawPattern fn) = false →
      wrap_function_with_callback content fn deps = content := by
    intro h
    unfold wrap_function_with_callback
    rw [if_neg (by rw [h]; exact Bool.false_ne_true)]
  refine ⟨main, ?_⟩
  intro hb
  apply main
  cases hc : containsStr content (rawPattern fn) with
  | false => rfl
  | true =>
    exfalso
    apply hb
    exact mem_of_containsStr content (rawPattern fn) bs hc (by simp [rawPattern])

/-- Witness for C2 at a concrete backslash-free text. -/
theorem C2_witness :
    wrap_function_with_callback ("const g = async () => x;".toList) ("g".toList) [] =
      "const g = async () => x;".toList :=
  (C2_wrap_unchanged_without_raw_pattern ("const g = async () => x;".toList)
    ("g".toList) []).1 (by decide)

/-- C1 (code bug): on the input of example scenario 1,
`const loadX = async () => { fetchA(); };` with name loadX and dependency
list [userId], the transformer returns the text unchanged instead of the
wrapped form, because the raw pattern carries literal backslashes that the
input does not contain; the claimed output is therefore not produced. -/
theorem C1_wrap_is_noop_on_spec_example :
    wrap_function_with_callback c1input ("loadX".toList) ["userId".toList] = c1input ∧
    c1input ≠ c1claimed := by
  constructor
  · decide
  · decide

/-- C6: when the anchor is found but the depth-counted scan reaches the end
of text before the counter returns to zero (NotFound), the transformer skips
the transformation and returns the text unchanged. -/
theorem C6_scan_notfound_skips (content fn : Str) (deps : List Str) (s : Nat)
    (hfind : strFind (anchorOf fn) content = some s)
    (hscan : findMatchingClose content s = none) :
    wrap_function_with_callback content fn deps = content := by
  unfold wrap_function_with_callback
  by_cases hc : containsStr content (rawPattern fn) = true
  · rw [if_pos hc]
    simp only [hfind, hscan]
  · rw [if_neg hc]

/-- Witness for C6: a text holding the raw pattern characters and an
unclosed brace; the scan reports NotFound and the text is unchanged. -/
theorem C6_witness : wrap_function_with_callback c6input ("f".toList) [] = c6input := by
  apply C6_scan_notfound_skips c6input ("f".toList) [] 0
  · decide
  · decide

/-! ImportAugmenter: add_use_callback_import. -/

theorem searchImportAux_sound (t : Str) : ∀ (fuel p r : Nat) (g : Str),
    searchImportAux t fuel p = some (r, g) → matchImportAt t r = some g := by
  intro fuel
  induction fuel with
  | zero => intro p r g h; cases h
  | succ fuel ih =>
    intro p r g h
    rw [searchImportAux] at h
    cases hm : matchImportAt t p with
    | some g' =>
      rw [hm] at h
      injection h with h'
      cases h'
      exact hm
    | none =>
      rw [hm] at h
      by_cases hp : p < t.length
      · rw [if_pos hp] at h
        exact ih (p + 1) r g h
      · rw [if_neg hp] at h
        cases h

theorem matchImportAt_pfx (t : Str) (r : Nat) (imports : Str)
    (h : matchImportAt t r = some imports) :
    pfx (lit1I ++ (imports ++ tailI)) (t.drop r) = true := by
  unfold matchImportAt at h
  by_cases hp : pfx lit1I (t.drop r) = true
  · rw [if_pos hp] at h
    cases hH : findCharFrom t rb (r + 16) with
    | none => rw [hH] at h; cases h
    | some H =>
      simp only [hH] at h
      by_cases hcond : r + 18 ≤ H ∧ pfx tailI (t.drop (H - 1)) = true
      · rw [if_pos hcond] at h
        injection h with h'
        obtain ⟨hq2, htail⟩ := hcond
        have hHlen : H - 1 < t.length := by
          by_contra hcon
          push_neg at hcon
          rw [List.drop_eq_nil_of_le hcon] at htail
          rw [pfx_false_of_ne_nil tailI (by decide)] at htail
          cases htail
        have hl16 : lit1I.length = 16 := by decide
        apply pfx_append_of
        · exact hp
        · rw [hl16, List.drop_drop]
          have hlen : imports.length = H - 1 - (r + 16) := by
            rw [← h']
            unfold slice
            rw [List.length_take, List.length_drop]
            have : H - 1 - (r + 16) ≤ t.length - (r + 16) := by omega
            omega
          apply pfx_append_of
          · rw [← h']
            exact pfx_take _ _
          · rw [hlen, List.drop_drop]
            have harith : r + 16 + (H - 1 - (r + 16)) = H - 1 := by omega
            rw [harith]
            exact htail
      · rw [if_neg hcond] at h
        cases h
  · rw [if_neg hp] at h
    cases h

theorem pfx_decompose (t : Str) (r : Nat) (a : Str) (h : pfx a (t.drop r) = true) :
    ∃ w, t = t.take r ++ (a ++ w) := by
  obtain ⟨w, hw⟩ := (pfx_iff a _).mp h
  refine ⟨w, ?_⟩
  conv_lhs => rw [← List.take_append_drop r t]
  rw [hw]

/-- C7: when the symbol `useCallback` already occurs anywhere in the text
(coarse substring containment), the augmenter returns the text unchanged;
and a second application after any first application is a no-op, so the
symbol is never inserted twice. -/
theorem C7_import_idempotent (content : Str) :
    (containsStr content ucSym = true → add_use_callback_import content = content) ∧
    add_use_callback_import (add_use_callback_import content) =
      add_use_callback_import content := by
  have part1 : ∀ c : Str, containsStr c ucSym = true → add_use_callback_import c = c := by
    intro c hc
    unfold add_use_callback_import
    rw [if_pos hc]
  refine ⟨part1 content, ?_⟩
  by_cases hc : containsStr content ucSym = true
  · rw [part1 content hc]
    exact part1 content hc
  · cases hs : searchImport content with
    | none =>
      have hid : add_use_callback_import content = content := by
        unfold add_use_callback_import
        rw [if_neg hc]
        simp only [hs]
      rw [hid]
      exact hid
    | some pg =>
      obtain ⟨p, imports⟩ := pg
      by_cases hi : containsStr imports ucSym = true
      · have hid : add_use_callback_import content = content := by
          unfold add_use_callback_import
          rw [if_neg hc]
          simp only [hs]
          rw [if_pos hi]
        rw [hid]
        exact hid
      · have hrepl : add_use_callback_import content =
            replaceAll (lit1I ++ (imports ++ tailI))
              (lit1I ++ (imports ++ (", useCallback".toList ++ tailI))) content := by
          unfold add_use_callback_import
          rw [if_neg hc]
          simp only [hs]
          rw [if_neg hi]
          simp only [List.append_assoc]
        have hocc : pfx (lit1I ++ (imports ++ tailI)) (content.drop p) = true :=
          matchImportAt_pfx content p imports
            (searchImportAux_sound content (content.length + 1) 0 p imports hs)
        obtain ⟨w, hw⟩ := pfx_decompose content p _ hocc
        obtain ⟨x, y, hxy⟩ := replaceAll_contains_new (lit1I ++ (imports ++ tailI))
          (lit1I ++ (imports ++ (", useCallback".toList ++ tailI)))
          (by simp [lit1I]) (content.take p) w
        have hres : containsStr (add_use_callback_import content) ucSym = true := by
          rw [hrepl,
            congrArg (replaceAll (lit1I ++ (imports ++ tailI))
              (lit1I ++ (imports ++ (", useCallback".toList ++ tailI)))) hw,
            hxy]
          apply containsStr_mono_mid
          apply containsStr_of_parts _ _ (lit1I ++ (imports ++ ", ".toList)) tailI
          have hsplit : ", useCallback".toList = ", ".toList ++ ucSym := by decide
          rw [hsplit]
          simp
        exact part1 _ hres

/-- Witness for C7 at example scenario 3: a text already containing
`useCallback` anywhere is returned unchanged, and re-application after a
first insertion is a no-op. -/
theorem C7_witness :
    add_use_callback_import c7winput2 = c7winput2 ∧
    add_use_callback_import (add_use_callback_import c7winput) =
      add_use_callback_import c7winput :=
  ⟨(C7_import_idempotent c7winput2).1 (by decide), (C7_import_idempotent c7winput).2⟩

/-- C10 counterexample: on a text made of two identical React import lines,
the augmenter rewrites both occurrences, so text outside the single
matched import line is changed as well. -/
theorem C10_counterexample_duplicate_line :
    add_use_callback_import c10cexInput =
      impLine ("useState, useCallback".toList) ++
        ([nl] ++ impLine ("useState, useCallback".toList)) ∧
    impLine ("useState, useCallback".toList) ≠ impLine ("useState".toList) := by
  constructor
  · decide
  · decide

/-! BatchRunner: change detection and write-back. -/

/-- C8: for both drivers the reported changed flag is true exactly when the
final buffer differs from the content read at the start of the call, and the
content is written back exactly under that flag (the written content being
the final buffer). -/
theorem C8_write_back_iff_changed (rules : List Rule) (fixes : List Fix) (orig : Str) :
    ((fix_file rules orig).2 = true ↔ fixFinal rules orig ≠ orig) ∧
    ((fix_file rules orig).1 = some (fixFinal rules orig) ↔ fixFinal rules orig ≠ orig) ∧
    ((fix_file rules orig).1 = none ↔ fixFinal rules orig = orig) ∧
    (process_file fixes orig = some (processFinal fixes orig) ↔
      processFinal fixes orig ≠ orig) ∧
    (process_file fixes orig = none ↔ processFinal fixes orig = orig) := by
  refine ⟨?_, ?_, ?_, ?_, ?_⟩
  · by_cases h : fixFinal rules orig = orig <;> simp [fix_file, h]
  · by_cases h : fixFinal rules orig = orig <;> simp [fix_file, h]
  · by_cases h : fixFinal rules orig = orig <;> simp [fix_file, h]
  · by_cases h : processFinal fixes orig = orig <;> simp [process_file, h]
  · by_cases h : processFinal fixes orig = orig <;> simp [process_file, h]

/-! DependencyListPatcher: add_deps_to_useeffect. -/

theorem matchUEAt_none (t fn : Str) (p : Nat)
    (h : pfx litUE (t.drop p) = true →
      containsStr (bodySegAt t (p + 17)) (fn ++ "();".toList) = false) :
    matchUEAt t fn p = none := by
  unfold matchUEAt
  by_cases hp : pfx litUE (t.drop p) = true
  · rw [if_pos hp]
    have hb := h hp
    unfold bodySegAt at hb
    cases hH : findCharFrom t rb (p + 17) with
    | none => simp [hH]
    | some hh =>
      rw [hH] at hb
      simp only [hH]
      rw [if_neg (by rw [hb]; exact Bool.false_ne_true)]
  · rw [if_neg hp]

theorem finditerAux_all_none (t fn : Str) (h : ∀ p, matchUEAt t fn p = none) :
    ∀ fuel p, finditerAux t fn fuel p = [] := by
  intro fuel
  induction fuel with
  | zero => intro p; rfl
  | succ fuel ih =>
    intro p
    rw [finditerAux]
    by_cases hp : p ≤ t.length
    · rw [if_pos hp]
      simp only [h p]
      exact ih (p + 1)
    · rw [if_neg hp]

/-- C9: the patcher touches only blocks of the fixed shape whose scanned
body segment, running from the anchor to the first close brace, holds the
call `<fn>();`.  On every text in which each occurrence of the anchor
`useEffect(() => {` is followed by a close brace before any such call (in
particular when a nested brace precedes the call, or the call is absent),
the text is returned unchanged. -/
theorem C9_no_match_unchanged (t fn : Str)
    (h : ∀ p, p < t.length → pfx litUE (t.drop p) = true →
      containsStr (bodySegAt t (p + 17)) (fn ++ "();".toList) = false) :
    add_deps_to_useeffect t fn = t := by
  have hnone : ∀ p, matchUEAt t fn p = none := by
    intro p
    apply matchUEAt_none
    intro hp
    by_cases hlt : p < t.length
    · exact h p hlt hp
    · exfalso
      push_neg at hlt
      rw [List.drop_eq_nil_of_le hlt] at hp
      rw [pfx_false_of_ne_nil litUE (by decide)] at hp
      cases hp
  unfold add_deps_to_useeffect finditerUE
  rw [finditerAux_all_none t fn hnone _ 0]
  rfl

/-- Witness for C9: in `useEffect(() => { if (a) { b(); } loadX(); }, [u]);`
the nested close brace precedes the call, so the block is not patched. -/
theorem C9_witness : add_deps_to_useeffect c9winput ("loadX".toList) = c9winput := by
  apply C9_no_match_unchanged
  decide

/-- C3 counterexample: in `useEffect(() => { loadX(); }, [ userId ]);` the
callback invokes loadX and loadX is not a member of the dependency list, but
the substitution key is built from the stripped list text `userId`, which
does not occur bracketed in the block ( `[ userId ]` carries the padding ),
so nothing is appended and the text is returned unchanged. -/
theorem C3_counterexample_padded_list :
    add_deps_to_useeffect c3cexInput ("loadX".toList) = c3cexInput := by
  decide

/-- C4 counterexample: two applications differ on `c4T`.  The first match's
global replacement rewrites the copy of its text inside the second matched
block, so the second match's own substitution finds nothing to replace; the
second application then patches the leftover bracket, changing the text
again. -/
theorem C4_counterexample_not_idempotent :
    add_deps_to_useeffect (add_deps_to_useeffect c4T ("f".toList)) ("f".toList) ≠
      add_deps_to_useeffect c4T ("f".toList) := by
  decide

theorem identChar_ne (c : Char) (h : isIdentChar c = true) :
    c ≠ rb ∧ c ≠ '[' ∧ c ≠ ']' ∧ pyWs c = false := by
  refine ⟨?_, ?_, ?_, ?_⟩
  · intro he; subst he; exact absurd h (by decide)
  · intro he; subst he; exact absurd h (by decide)
  · intro he; subst he; exact absurd h (by decide)
  · cases hpw : pyWs c with
    | false => rfl
    | true =>
      exfalso
      simp only [pyWs, Bool.or_eq_true, decide_eq_true_eq] at hpw
      rcases hpw with ((((h1 | h2) | h3) | h4) | h5) | h6 <;>
        first
        | (subst h1; exact absurd h (by decide))
        | (subst h2; exact absurd h (by decide))
        | (subst h3; exact absurd h (by decide))
        | (subst h4; exact absurd h (by decide))
        | (subst h5; exact absurd h (by decide))
        | (subst h6; exact absurd h (by decide))

theorem identStr_spec (fn : Str) (h : isIdentStr fn = true) :
    fn ≠ [] ∧ ∀ c ∈ fn, isIdentChar c = true := by
  unfold isIdentStr at h
  rcases Bool.and_eq_true_iff.mp h with ⟨h1, h2⟩
  exact ⟨decide_eq_true_eq.mp h1, List.all_eq_true.mp h2⟩

theorem findCharIdx_rb_ueMid (Z : Str) : findCharIdx rb (ueMid ++ Z) = some 4 := by
  have he : (ueMid ++ Z : Str) =
      '(' :: (')' :: (';' :: (' ' :: (rb :: (',' :: (' ' :: ('[' :: Z))))))) := rfl
  rw [he]
  rw [findCharIdx, if_neg (by decide), findCharIdx, if_neg (by decide),
    findCharIdx, if_neg (by decide), findCharIdx, if_neg (by decide),
    findCharIdx, if_pos rfl]
  rfl

theorem findCharIdx_lbr_ueMid (Z : Str) : findCharIdx '[' (ueMid ++ Z) = some 7 := by
  have he : (ueMid ++ Z : Str) =
      '(' :: (')' :: (';' :: (' ' :: (rb :: (',' :: (' ' :: ('[' :: Z))))))) := rfl
  rw [he]
  rw [findCharIdx, if_neg (by decide), findCharIdx, if_neg (by decide),
    findCharIdx, if_neg (by decide), findCharIdx, if_neg (by decide),
    findCharIdx, if_neg (by decide), findCharIdx, if_neg (by decide),
    findCharIdx, if_neg (by decide), findCharIdx, if_pos rfl]
  rfl

theorem ueBlock_len (body fn deps : Str) :
    (ueBlock body fn deps).length = body.length + fn.length + deps.length + 28 := by
  simp only [ueBlock, List.length_append]
  have h1 : litUE.length = 17 := by decide
  have h2 : ueMid.length = 8 := by decide
  have h3 : ueEnd.length = 3 := by decide
  omega

theorem matchUEAt_ueBlock (body fn deps : Str)
    (hbody : ∀ c ∈ body, c ≠ rb)
    (hfn : ∀ c ∈ fn, c ≠ rb)
    (hdeps : ∀ c ∈ deps, c ≠ ']') :
    matchUEAt (ueBlock body fn deps) fn 0 = some (ueBlock body fn deps).length := by
  have hlitlen : litUE.length = 17 := by decide
  have hMidSplit : (ueMid : Str) = "(); ".toList ++ [rb, ',', ' ', '['] := by decide
  have hEndSplit : (ueEnd : Str) = ']' :: ");".toList := rfl
  -- the first close brace after the head sits at the end of the call
  have hdrop17 : (ueBlock body fn deps).drop 17 =
      body ++ (fn ++ (ueMid ++ (deps ++ ueEnd))) := by
    unfold ueBlock
    exact List.drop_left' hlitlen
  have hfind : findCharFrom (ueBlock body fn deps) rb (0 + 17) =
      some (body.length + fn.length + 21) := by
    unfold findCharFrom
    rw [Nat.zero_add, hdrop17]
    rw [findCharIdx_append rb body _ hbody, findCharIdx_append rb fn _ hfn,
      findCharIdx_rb_ueMid]
    simp only [Option.map_some', Option.some.injEq]
    omega
  unfold matchUEAt
  rw [if_pos (by rw [List.drop_zero]; exact pfx_of_append litUE _)]
  simp only [hfind]
  -- the scanned body segment holds the call
  have hslice : slice (ueBlock body fn deps) (0 + 17) (body.length + fn.length + 21) =
      body ++ (fn ++ "(); ".toList) := by
    unfold slice
    rw [Nat.zero_add, hdrop17]
    have harith : body.length + fn.length + 21 - 17 = body.length + (fn.length + 4) := by
      omega
    rw [harith, take_len_append body _ _, take_len_append fn _ _]
    have h4 : (ueMid ++ (deps ++ ueEnd)).take 4 = "(); ".toList := by
      rw [hMidSplit, List.append_assoc]
      have : ("(); ".toList : Str).length = 4 := by decide
      rw [← this, List.take_left]
    rw [h4]
  rw [hslice]
  have hcall : containsStr (body ++ (fn ++ "(); ".toList)) (fn ++ "();".toList) = true := by
    apply containsStr_of_parts _ _ body [' ']
    have : ("(); ".toList : Str) = "();".toList ++ [' '] := by decide
    rw [this]
    simp
  rw [if_pos hcall]
  -- the literal close of the callback: `}, [`
  have hshape1 : ueBlock body fn deps =
      (litUE ++ (body ++ (fn ++ "(); ".toList))) ++
        ([rb, ',', ' ', '['] ++ (deps ++ ueEnd)) := by
    unfold ueBlock
    rw [hMidSplit]
    simp only [List.append_assoc]
  have hlen1 : (litUE ++ (body ++ (fn ++ "(); ".toList))).length =
      body.length + fn.length + 21 := by
    simp only [List.length_append, hlitlen]
    have : ("(); ".toList : Str).length = 4 := by decide
    omega
  have hdropH : (ueBlock body fn deps).drop (body.length + fn.length + 21) =
      [rb, ',', ' ', '['] ++ (deps ++ ueEnd) := by
    rw [hshape1]
    exact List.drop_left' hlen1
  rw [if_pos (by
    rw [hdropH]
    have : ([rb] ++ ", [".toList : Str) = [rb, ',', ' ', '['] := by decide
    rw [this]
    exact pfx_of_append _ _)]
  -- the first close bracket after the open bracket ends the list
  have hshape2 : ueBlock body fn deps =
      ((litUE ++ (body ++ (fn ++ "(); ".toList))) ++ [rb, ',', ' ', '[']) ++
        (deps ++ ueEnd) := by
    rw [hshape1, ← List.append_assoc]
  have hlen2 : ((litUE ++ (body ++ (fn ++ "(); ".toList))) ++ [rb, ',', ' ', '[']).length =
      body.length + fn.length + 21 + 4 := by
    rw [List.length_append, hlen1]
    rfl
  have hdropU : (ueBlock body fn deps).drop (body.length + fn.length + 21 + 4) =
      deps ++ ueEnd := by
    rw [hshape2]
    exact List.drop_left' hlen2
  have hfindV : findCharFrom (ueBlock body fn deps) ']' (body.length + fn.length + 21 + 4) =
      some (body.length + fn.length + deps.length + 25) := by
    unfold findCharFrom
    rw [hdropU, findCharIdx_append ']' deps _ hdeps, hEndSplit, findCharIdx_cons_self]
    simp only [Option.map_some', Option.some.injEq]
    omega
  simp only [hfindV]
  -- the closing literal `]);`
  have hshape3 : ueBlock body fn deps =
      (((litUE ++ (body ++ (fn ++ "(); ".toList))) ++ [rb, ',', ' ', '[']) ++ deps) ++
        ueEnd := by
    rw [hshape2, ← List.append_assoc]
  have hlen3 : ((((litUE ++ (body ++ (fn ++ "(); ".toList))) ++ [rb, ',', ' ', '[']) ++ deps)).length =
      body.length + fn.length + deps.length + 25 := by
    rw [List.length_append, List.length_append, hlen1]
    have h4 : ([rb, ',', ' ', '['] : Str).length = 4 := rfl
    rw [h4]
    omega
  have hdropV : (ueBlock body fn deps).drop (body.length + fn.length + deps.length + 25) =
      ueEnd := by
    rw [hshape3]
    exact List.drop_left' hlen3
  rw [if_pos (by
    rw [hdropV]
    exact pfx_rfl _)]
  rw [ueBlock_len]

theorem finditerAux_stop (t fn : Str) (fuel p : Nat) (hp : t.length < p) :
    finditerAux t fn fuel p = [] := by
  cases fuel with
  | zero => rfl
  | succ f => rw [finditerAux, if_neg (by omega)]

theorem finditerAux_at_end (t fn : Str) (fuel : Nat) :
    finditerAux t fn fuel t.length = [] := by
  cases fuel with
  | zero => rfl
  | succ f =>
    rw [finditerAux, if_pos (Nat.le_refl _)]
    have hnone : matchUEAt t fn t.length = none := by
      unfold matchUEAt
      rw [List.drop_length,
        if_neg (by rw [pfx_false_of_ne_nil litUE (by decide)]; exact Bool.false_ne_true)]
    simp only [hnone]
    exact finditerAux_stop t fn f (t.length + 1) (by omega)

theorem finditerUE_single (t fn : Str) (h0 : matchUEAt t fn 0 = some t.length) :
    finditerUE t fn = [t] := by
  unfold finditerUE
  rw [finditerAux, if_pos (Nat.zero_le _)]
  simp only [h0]
  have hs : slice t 0 t.length = t := by
    unfold slice
    simp
  rw [hs, finditerAux_at_end]

theorem depsSearch_ueBlock (body fn deps : Str)
    (hbody : ∀ c ∈ body, c ≠ '[')
    (hfn : ∀ c ∈ fn, c ≠ '[')
    (hdeps : ∀ c ∈ deps, c ≠ ']') :
    depsSearch (ueBlock body fn deps) = some deps := by
  have hlit : ∀ c ∈ litUE, c ≠ '[' := by decide
  have hEndSplit : (ueEnd : Str) = ']' :: ");".toList := rfl
  have hidx : findCharIdx '[' (ueBlock body fn deps) =
      some (body.length + fn.length + 24) := by
    unfold ueBlock
    rw [findCharIdx_append '[' litUE _ hlit, findCharIdx_append '[' body _ hbody,
      findCharIdx_append '[' fn _ hfn, findCharIdx_lbr_ueMid]
    simp only [Option.map_some', Option.some.injEq]
    have : litUE.length = 17 := by decide
    omega
  unfold depsSearch
  simp only [hidx]
  have hshape : ueBlock body fn deps =
      (litUE ++ (body ++ (fn ++ ueMid))) ++ (deps ++ ueEnd) := by
    unfold ueBlock
    simp only [List.append_assoc]
  have hlen : (litUE ++ (body ++ (fn ++ ueMid))).length =
      body.length + fn.length + 24 + 1 := by
    simp only [List.length_append]
    have h1 : litUE.length = 17 := by decide
    have h2 : ueMid.length = 8 := by decide
    omega
  have hdrop : (ueBlock body fn deps).drop (body.length + fn.length + 24 + 1) =
      deps ++ ueEnd := by
    rw [hshape]
    exact List.drop_left' hlen
  have hfindJ : findCharFrom (ueBlock body fn deps) ']' (body.length + fn.length + 24 + 1) =
      some (deps.length + (body.length + fn.length + 24 + 1)) := by
    unfold findCharFrom
    rw [hdrop, findCharIdx_append ']' deps _ hdeps, hEndSplit, findCharIdx_cons_self]
    simp only [Option.map_some', Option.some.injEq]
    omega
  simp only [hfindJ]
  congr 1
  unfold slice
  rw [hdrop]
  have harith : deps.length + (body.length + fn.length + 24 + 1) -
      (body.length + fn.length + 24 + 1) = deps.length := by omega
  rw [harith]
  exact List.take_left deps ueEnd

theorem processMatch_ueBlock_skip (cur body fn deps : Str)
    (hbody : ∀ c ∈ body, c ≠ '[')
    (hfn : ∀ c ∈ fn, c ≠ '[')
    (hdeps : ∀ c ∈ deps, c ≠ ']')
    (hstrip : strip deps = deps)
    (hin : containsStr deps fn = true) :
    processMatch fn cur (ueBlock body fn deps) = cur := by
  unfold processMatch
  simp only [depsSearch_ueBlock body fn deps hbody hfn hdeps]
  rw [hstrip, if_pos hin]

theorem no_pfx_cons_at (c : Char) (X P rest : Str) (hP : ∀ x ∈ P, x ≠ c) :
    ∀ k, k < P.length → ¬ pfx (c :: X) ((P ++ rest).drop k) = true := by
  intro k hk h
  obtain ⟨w, hw⟩ := (pfx_iff _ _).mp h
  have h0 : ((P ++ rest).drop k)[0]? = some c := by
    rw [hw]
    simp
  rw [List.getElem?_drop] at h0
  rw [List.getElem?_append_left (by omega)] at h0
  exact hP c (List.getElem?_mem h0) rfl

theorem no_pfx_cons_all (c : Char) (X s : Str) (hs : ∀ x ∈ s, x ≠ c) :
    ∀ k, ¬ pfx (c :: X) (s.drop k) = true := by
  intro k h
  obtain ⟨w, hw⟩ := (pfx_iff _ _).mp h
  have hm : c ∈ s.drop k := by
    rw [hw]
    exact List.mem_cons_self c _
  exact hs c (mem_of_mem_drop c s k hm) rfl

theorem ueBlock_subst_shape (body fn deps : Str) :
    ueBlock body fn deps =
      (litUE ++ (body ++ (fn ++ ("(); ".toList ++ [rb, ',', ' '])))) ++
        (('[' :: (deps ++ [']'])) ++ ");".toList) := by
  unfold ueBlock
  have hMid : (ueMid : Str) = ("(); ".toList ++ [rb, ',', ' ']) ++ ['['] := by decide
  have hEnd : (ueEnd : Str) = [']'] ++ ");".toList := rfl
  rw [hMid, hEnd]
  simp only [List.append_assoc, List.cons_append, List.singleton_append, List.nil_append]

theorem ueBlock_inner_subst (body fn deps nd : Str)
    (hbody : ∀ c ∈ body, c ≠ '[')
    (hfn : ∀ c ∈ fn, c ≠ '[') :
    replaceAll ('[' :: (deps ++ [']'])) ('[' :: (nd ++ [']'])) (ueBlock body fn deps) =
      ueBlock body fn nd := by
  have hPfree : ∀ x ∈ (litUE ++ (body ++ (fn ++ ("(); ".toList ++ [rb, ',', ' '])))),
      x ≠ '[' := by
    intro x hx
    simp only [List.mem_append] at hx
    rcases hx with h1 | h2 | h3 | h4 | h5
    · exact (by decide : ∀ c ∈ litUE, c ≠ '[') x h1
    · exact hbody x h2
    · exact hfn x h3
    · exact (by decide : ∀ c ∈ ("(); ".toList : Str), c ≠ '[') x h4
    · exact (by decide : ∀ c ∈ ([rb, ',', ' '] : Str), c ≠ '[') x h5
  rw [ueBlock_subst_shape body fn deps]
  rw [replaceAll_append_noocc _ _ _ _
    (fun k hk => no_pfx_cons_at '[' _ _ _ hPfree k hk)]
  rw [replaceAll_fire _ _ _ (by simp)]
  rw [replaceAll_noocc _ _ _
    (no_pfx_cons_all '[' _ _ (by decide : ∀ x ∈ (");".toList : Str), x ≠ '['))]
  rw [ueBlock_subst_shape body fn nd]

theorem replaceAll_self (old new : Str) (h : old ≠ []) : replaceAll old new old = new := by
  have h2 := replaceAll_fire old new [] h
  rw [List.append_nil] at h2
  rw [h2, replaceAll_nil, List.append_nil]

theorem ueBlock_ne_nil (body fn deps : Str) : ueBlock body fn deps ≠ [] := by
  intro h
  have := congrArg List.length h
  rw [ueBlock_len] at this
  simp at this

theorem processMatch_ueBlock_fire (cur body fn deps : Str)
    (hbody : ∀ c ∈ body, c ≠ '[')
    (hfn : ∀ c ∈ fn, c ≠ '[')
    (hdeps : ∀ c ∈ deps, c ≠ ']')
    (hstrip : strip deps = deps)
    (hnotin : containsStr deps fn = false) :
    processMatch fn cur (ueBlock body fn deps) =
      replaceAll (ueBlock body fn deps) (ueBlock body fn (joinDeps deps fn)) cur := by
  unfold processMatch
  simp only [depsSearch_ueBlock body fn deps hbody hfn hdeps]
  rw [hstrip, if_neg (by rw [hnotin]; exact Bool.false_ne_true)]
  have hj : ('[' :: ((if deps ≠ [] then deps ++ (", ".toList ++ fn) else fn) ++ [']'])) =
      ('[' :: (joinDeps deps fn ++ [']'])) := rfl
  rw [hj, ueBlock_inner_subst body fn deps (joinDeps deps fn) hbody hfn]

theorem addDeps_ueBlock_fire (body fn deps : Str)
    (hbody_rb : ∀ c ∈ body, c ≠ rb) (hbody_br : ∀ c ∈ body, c ≠ '[')
    (hfn_rb : ∀ c ∈ fn, c ≠ rb) (hfn_br : ∀ c ∈ fn, c ≠ '[')
    (hdeps : ∀ c ∈ deps, c ≠ ']')
    (hstrip : strip deps = deps)
    (hnotin : containsStr deps fn = false) :
    add_deps_to_useeffect (ueBlock body fn deps) fn =
      ueBlock body fn (joinDeps deps fn) := by
  unfold add_deps_to_useeffect
  rw [finditerUE_single _ _ (matchUEAt_ueBlock body fn deps hbody_rb hfn_rb hdeps)]
  simp only [List.foldl_cons, List.foldl_nil]
  rw [processMatch_ueBlock_fire _ body fn deps hbody_br hfn_br hdeps hstrip hnotin]
  exact replaceAll_self _ _ (ueBlock_ne_nil body fn deps)

theorem addDeps_ueBlock_skip (body fn deps : Str)
    (hbody_rb : ∀ c ∈ body, c ≠ rb) (hbody_br : ∀ c ∈ body, c ≠ '[')
    (hfn_rb : ∀ c ∈ fn, c ≠ rb) (hfn_br : ∀ c ∈ fn, c ≠ '[')
    (hdeps : ∀ c ∈ deps, c ≠ ']')
    (hstrip : strip deps = deps)
    (hin : containsStr deps fn = true) :
    add_deps_to_useeffect (ueBlock body fn deps) fn = ueBlock body fn deps := by
  unfold add_deps_to_useeffect
  rw [finditerUE_single _ _ (matchUEAt_ueBlock body fn deps hbody_rb hfn_rb hdeps)]
  simp only [List.foldl_cons, List.foldl_nil]
  exact processMatch_ueBlock_skip _ body fn deps hbody_br hfn_br hdeps hstrip hin

theorem joinDeps_contains (deps fn : Str) : containsStr (joinDeps deps fn) fn = true := by
  unfold joinDeps
  by_cases hd : deps ≠ []
  · rw [if_pos hd]
    apply containsStr_of_parts _ _ (deps ++ ", ".toList) []
    simp
  · rw [if_neg hd]
    apply containsStr_of_parts _ _ [] []
    simp

theorem joinDeps_no_rbr (deps fn : Str) (hdeps : ∀ c ∈ deps, c ≠ ']')
    (hfn : ∀ c ∈ fn, isIdentChar c = true) : ∀ c ∈ joinDeps deps fn, c ≠ ']' := by
  intro c hc
  unfold joinDeps at hc
  by_cases hd : deps ≠ []
  · rw [if_pos hd] at hc
    simp only [List.mem_append] at hc
    rcases hc with h1 | h2 | h3
    · exact hdeps c h1
    · exact (by decide : ∀ x ∈ (", ".toList : Str), x ≠ ']') c h2
    · exact (identChar_ne c (hfn c h3)).2.2.1
  · rw [if_neg hd] at hc
    exact (identChar_ne c (hfn c hc)).2.2.1

theorem strip_joinDeps (deps fn : Str) (hstrip : strip deps = deps)
    (hfn : isIdentStr fn = true) : strip (joinDeps deps fn) = joinDeps deps fn := by
  obtain ⟨hne, hall⟩ := identStr_spec fn hfn
  apply strip_of_ends
  · cases deps with
    | nil =>
      rw [joinDeps, if_neg (by simp)]
      cases fn with
      | nil => exact absurd rfl hne
      | cons f0 fr =>
        have hw : pyWs f0 = false := (identChar_ne f0 (hall f0 (by simp))).2.2.2
        exact dropWhile_eq_self_of_head pyWs f0 fr (by simp [hw])
    | cons d0 dr =>
      have hw0 : pyWs d0 = false := head_not_ws_of_strip (d0 :: dr) d0 dr hstrip rfl
      rw [joinDeps, if_pos (by simp), List.cons_append]
      exact dropWhile_eq_self_of_head pyWs d0 _ (by simp [hw0])
  · cases hf : fn.reverse with
    | nil =>
      exfalso
      apply hne
      rw [← List.reverse_reverse fn, hf]
      rfl
    | cons g gs =>
      have hg : g ∈ fn := List.mem_reverse.mp (by rw [hf]; simp)
      have hwg : pyWs g = false := (identChar_ne g (hall g hg)).2.2.2
      unfold joinDeps
      by_cases hd : deps ≠ []
      · rw [if_pos hd, List.reverse_append, List.reverse_append, hf]
        rw [List.append_assoc, List.cons_append]
        exact dropWhile_eq_self_of_head pyWs g _ (by simp [hwg])
      · rw [if_neg hd, hf]
        exact dropWhile_eq_self_of_head pyWs g gs (by simp [hwg])

/-- C3 (amended): on a text that is a single well-formed block whose body
segment holds no close brace and no open bracket, whose dependency list is
written without inner padding and holds no close bracket, and where the
identifier funcName does not occur as a substring of the list text, the
patcher appends funcName at the end, preserving existing order and
formatting (`a, b` becomes `a, b, funcName`; an empty list becomes
`funcName`).  As stated originally the claim fails: membership is tested by
substring containment and the substitution key is the stripped list text, so
a padded list such as `[ userId ]` is left unchanged. -/
theorem C3_amended_appends (body fn deps : Str)
    (hbody_rb : ∀ c ∈ body, c ≠ rb) (hbody_br : ∀ c ∈ body, c ≠ '[')
    (hfn : isIdentStr fn = true)
    (hdeps : ∀ c ∈ deps, c ≠ ']')
    (hstrip : strip deps = deps)
    (hnotin : containsStr deps fn = false) :
    add_deps_to_useeffect (ueBlock body fn deps) fn =
      ueBlock body fn (joinDeps deps fn) := by
  obtain ⟨hne, hall⟩ := identStr_spec fn hfn
  exact addDeps_ueBlock_fire body fn deps hbody_rb hbody_br
    (fun c hc => (identChar_ne c (hall c hc)).1)
    (fun c hc => (identChar_ne c (hall c hc)).2.1)
    hdeps hstrip hnotin

/-- Witness for C3 at example scenario 2: the block
`useEffect(() => { loadX(); }, [userId]);` is rewritten so the dependency
array becomes `[userId, loadX]`. -/
theorem C3_amended_witness :
    add_deps_to_useeffect (ueBlock (" ".toList) ("loadX".toList) ("userId".toList))
        ("loadX".toList) =
      ueBlock (" ".toList) ("loadX".toList)
        (joinDeps ("userId".toList) ("loadX".toList)) :=
  C3_amended_appends (" ".toList) ("loadX".toList) ("userId".toList)
    (by decide) (by decide) (by decide) (by decide) (by decide) (by decide)

/-- C4 (amended): on a text that is a single well-formed block (no close
brace or open bracket in the body segment, unpadded close-bracket-free
dependency list, identifier funcName), two applications of the patcher
agree with one: the appended list then contains funcName as a substring and
the second run is a no-op.  In general the claim fails: with overlapping
occurrences of a matched block's text the first run's global replacement
can starve another match's substitution, deferring its change to the second
run (see the counterexample). -/
theorem C4_amended_idempotent_on_block (body fn deps : Str)
    (hbody_rb : ∀ c ∈ body, c ≠ rb) (hbody_br : ∀ c ∈ body, c ≠ '[')
    (hfn : isIdentStr fn = true)
    (hdeps : ∀ c ∈ deps, c ≠ ']')
    (hstrip : strip deps = deps) :
    add_deps_to_useeffect (add_deps_to_useeffect (ueBlock body fn deps) fn) fn =
      add_deps_to_useeffect (ueBlock body fn deps) fn := by
  obtain ⟨hne, hall⟩ := identStr_spec fn hfn
  have hfn_rb : ∀ c ∈ fn, c ≠ rb := fun c hc => (identChar_ne c (hall c hc)).1
  have hfn_br : ∀ c ∈ fn, c ≠ '[' := fun c hc => (identChar_ne c (hall c hc)).2.1
  by_cases hin : containsStr deps fn = true
  · have h1 := addDeps_ueBlock_skip body fn deps hbody_rb hbody_br hfn_rb hfn_br
      hdeps hstrip hin
    rw [h1]
    exact h1
  · have hnotin : containsStr deps fn = false := by
      cases hcs : containsStr deps fn with
      | true => exact absurd hcs hin
      | false => rfl
    have h1 := addDeps_ueBlock_fire body fn deps hbody_rb hbody_br hfn_rb hfn_br
      hdeps hstrip hnotin
    have h2 := addDeps_ueBlock_skip body fn (joinDeps deps fn) hbody_rb hbody_br
      hfn_rb hfn_br (joinDeps_no_rbr deps fn hdeps hall)
      (strip_joinDeps deps fn hstrip hfn) (joinDeps_contains deps fn)
    rw [h1]
    exact h2

/-- Witness for C4 (amended) on the block of example scenario 2. -/
theorem C4_amended_witness :
    add_deps_to_useeffect
        (add_deps_to_useeffect (ueBlock (" ".toList) ("loadX".toList) ("userId".toList))
          ("loadX".toList)) ("loadX".toList) =
      add_deps_to_useeffect (ueBlock (" ".toList) ("loadX".toList) ("userId".toList))
        ("loadX".toList) :=
  C4_amended_idempotent_on_block (" ".toList) ("loadX".toList) ("userId".toList)
    (by decide) (by decide) (by decide) (by decide) (by decide)

theorem lb_unique_pos (pre names post : Str)
    (hpre : ∀ c ∈ pre, c ≠ lb) (hnames : ∀ c ∈ names, c ≠ lb)
    (hpost : ∀ c ∈ post, c ≠ lb) :
    ∀ j, (pre ++ (lit1I ++ (names ++ (tailI ++ post))))[j]? = some lb →
      j = pre.length + 14 := by
  intro j hj
  have hl16 : lit1I.length = 16 := by decide
  have ht16 : tailI.length = 16 := by decide
  by_cases h1 : j < pre.length
  · rw [List.getElem?_append_left h1] at hj
    exact absurd rfl (hpre lb (List.getElem?_mem hj))
  · push_neg at h1
    rw [List.getElem?_append_right h1] at hj
    by_cases h2 : j - pre.length < 16
    · rw [List.getElem?_append_left (by rw [hl16]; exact h2)] at hj
      have hdec : ∀ m < 16, lit1I[m]? = some lb → m = 14 := by decide
      have := hdec (j - pre.length) h2 hj
      omega
    · push_neg at h2
      rw [List.getElem?_append_right (by rw [hl16]; omega), hl16] at hj
      by_cases h3 : j - pre.length - 16 < names.length
      · rw [List.getElem?_append_left h3] at hj
        exact absurd rfl (hnames lb (List.getElem?_mem hj))
      · push_neg at h3
        rw [List.getElem?_append_right h3] at hj
        by_cases h4 : j - pre.length - 16 - names.length < 16
        · rw [List.getElem?_append_left (by rw [ht16]; exact h4)] at hj
          have hdec : ∀ m < 16, ¬ tailI[m]? = some lb := by decide
          exact absurd hj (hdec _ h4)
        · push_neg at h4
          rw [List.getElem?_append_right (by rw [ht16]; omega)] at hj
          exact absurd rfl (hpost lb (List.getElem?_mem hj))

theorem pfx_headlit_pos (t X : Str) (k : Nat) (h : pfx (lit1I ++ X) (t.drop k) = true) :
    t[k + 14]? = some lb := by
  have hl16 : lit1I.length = 16 := by decide
  have hlen : (14 : Nat) < (lit1I ++ X).length := by
    rw [List.length_append, hl16]
    omega
  have h14 := pfx_getElem _ _ h 14 hlen
  rw [List.getElem?_drop] at h14
  rw [h14, List.getElem?_append_left (by rw [hl16]; omega)]
  decide

theorem pfx_lit1I_pos (t : Str) (p : Nat) (h : pfx lit1I (t.drop p) = true) :
    t[p + 14]? = some lb := by
  have h14 := pfx_getElem lit1I (t.drop p) h 14 (by decide)
  rw [List.getElem?_drop] at h14
  rw [h14]
  decide

theorem matchImportAt_none_before (pre names post : Str)
    (hpre : ∀ c ∈ pre, c ≠ lb) (hnames : ∀ c ∈ names, c ≠ lb)
    (hpost : ∀ c ∈ post, c ≠ lb) :
    ∀ p, p < pre.length →
      matchImportAt (pre ++ (lit1I ++ (names ++ (tailI ++ post)))) p = none := by
  intro p hp
  unfold matchImportAt
  rw [if_neg ?hneg]
  case hneg =>
    intro hpf
    have hpos := pfx_lit1I_pos _ p hpf
    have := lb_unique_pos pre names post hpre hnames hpost (p + 14) hpos
    omega

theorem matchImportAt_at_line (pre names post : Str)
    (hne : names ≠ []) (hnames_rb : ∀ c ∈ names, c ≠ rb) :
    matchImportAt (pre ++ (lit1I ++ (names ++ (tailI ++ post)))) pre.length =
      some names := by
  have hl16 : lit1I.length = 16 := by decide
  have hp : pfx lit1I ((pre ++ (lit1I ++ (names ++ (tailI ++ post)))).drop pre.length) = true := by
    rw [List.drop_left]
    exact pfx_of_append _ _
  have hdropq : (pre ++ (lit1I ++ (names ++ (tailI ++ post)))).drop (pre.length + 16) =
      names ++ (tailI ++ post) := by
    have hsh : (pre ++ (lit1I ++ (names ++ (tailI ++ post)))) =
        (pre ++ lit1I) ++ (names ++ (tailI ++ post)) := by
      simp [List.append_assoc]
    rw [hsh]
    apply List.drop_left'
    rw [List.length_append, hl16]
  have hidx : findCharIdx rb (tailI ++ post) = some 1 := by
    rw [show (tailI ++ post : Str) = ' ' :: (rb :: (" from ".toList ++
      ([apos] ++ ("react".toList ++ ([apos, ';'] ++ post))))) from rfl]
    rw [findCharIdx, if_neg (by decide), findCharIdx, if_pos rfl]
    rfl
  have hfind : findCharFrom (pre ++ (lit1I ++ (names ++ (tailI ++ post)))) rb
      (pre.length + 16) = some (pre.length + names.length + 17) := by
    unfold findCharFrom
    rw [hdropq, findCharIdx_append rb names _ hnames_rb, hidx]
    simp only [Option.map_some', Option.some.injEq]
    omega
  have hlen1 : 0 < names.length := List.length_pos.mpr hne
  have hdropt : (pre ++ (lit1I ++ (names ++ (tailI ++ post)))).drop
      (pre.length + names.length + 17 - 1) = tailI ++ post := by
    have hsh : (pre ++ (lit1I ++ (names ++ (tailI ++ post)))) =
        (pre ++ (lit1I ++ names)) ++ (tailI ++ post) := by
      simp [List.append_assoc]
    rw [hsh]
    apply List.drop_left'
    simp only [List.length_append, hl16]
    omega
  unfold matchImportAt
  rw [if_pos hp]
  simp only [hfind]
  rw [if_pos ⟨by omega, by rw [hdropt]; exact pfx_of_append _ _⟩]
  congr 1
  unfold slice
  rw [hdropq]
  have harith : pre.length + names.length + 17 - 1 - (pre.length + 16) = names.length := by
    omega
  rw [harith]
  exact List.take_left names (tailI ++ post)

theorem searchImportAux_eval (t : Str) (r : Nat) (g : Str)
    (hr : r ≤ t.length)
    (hnone : ∀ p, p < r → matchImportAt t p = none)
    (hmatch : matchImportAt t r = some g) :
    ∀ fuel p, p ≤ r → r - p < fuel → searchImportAux t fuel p = some (r, g) := by
  intro fuel
  induction fuel with
  | zero =>
    intro p _ h
    omega
  | succ fuel ih =>
    intro p hpr hfuel
    rw [searchImportAux]
    by_cases hpe : p = r
    · subst hpe
      simp only [hmatch]
    · have hplt : p < r := by omega
      simp only [hnone p hplt]
      rw [if_pos (by omega)]
      exact ih (p + 1) (by omega) (by omega)

/-- C10 (amended): when the symbol is inserted, every occurrence of the
exact matched import line text is rewritten — for a unique line (here
forced by the open brace occurring nowhere else) exactly that line, with
all existing names kept in order and `, useCallback` appended after the
last one, and all text outside unchanged; when the symbol is absent and no
line of the matched shape exists, the whole text is returned unchanged.  As
stated originally the claim fails: with two identical import lines both
occurrences are rewritten (see the counterexample). -/
theorem C10_amended_frame :
    (∀ pre names post : Str, (∀ c ∈ pre, c ≠ lb) → (∀ c ∈ names, c ≠ lb) →
      (∀ c ∈ names, c ≠ rb) → names ≠ [] → (∀ c ∈ post, c ≠ lb) →
      containsStr (pre ++ (lit1I ++ (names ++ (tailI ++ post)))) ucSym = false →
      add_use_callback_import (pre ++ (lit1I ++ (names ++ (tailI ++ post)))) =
        pre ++ (lit1I ++ (names ++ (", useCallback".toList ++ (tailI ++ post))))) ∧
    (∀ c : Str, containsStr c ucSym = false → searchImport c = none →
      add_use_callback_import c = c) := by
  constructor
  · intro pre names post hpre hnames_lb hnames_rb hne hpost hnc
    have hmatch := matchImportAt_at_line pre names post hne hnames_rb
    have hnone := matchImportAt_none_before pre names post hpre hnames_lb hpost
    have hlenle : pre.length ≤ (pre ++ (lit1I ++ (names ++ (tailI ++ post)))).length := by
      simp only [List.length_append]
      omega
    have hsearch : searchImport (pre ++ (lit1I ++ (names ++ (tailI ++ post)))) =
        some (pre.length, names) := by
      unfold searchImport
      exact searchImportAux_eval _ _ _ hlenle hnone hmatch _ 0 (Nat.zero_le _) (by omega)
    have hni : containsStr names ucSym = false := by
      cases hcs : containsStr names ucSym with
      | false => rfl
      | true =>
        exfalso
        have hmid := containsStr_mono_mid (pre ++ lit1I) names (tailI ++ post) ucSym hcs
        have hsh : ((pre ++ lit1I) ++ (names ++ (tailI ++ post))) =
            pre ++ (lit1I ++ (names ++ (tailI ++ post))) := by
          simp [List.append_assoc]
        rw [hsh, hnc] at hmid
        cases hmid
    unfold add_use_callback_import
    rw [if_neg (by rw [hnc]; exact Bool.false_ne_true)]
    simp only [hsearch]
    rw [if_neg (by rw [hni]; exact Bool.false_ne_true)]
    have hocc1 : ∀ k, k < pre.length →
        ¬ pfx (lit1I ++ (names ++ tailI))
          ((pre ++ ((lit1I ++ (names ++ tailI)) ++ post)).drop k) = true := by
      intro k hk hpf
      have hpos := pfx_headlit_pos _ _ k hpf
      have hsh : (pre ++ ((lit1I ++ (names ++ tailI)) ++ post)) =
          pre ++ (lit1I ++ (names ++ (tailI ++ post))) := by
        simp [List.append_assoc]
      rw [hsh] at hpos
      have := lb_unique_pos pre names post hpre hnames_lb hpost (k + 14) hpos
      omega
    have hocc3 : ∀ k, ¬ pfx (lit1I ++ (names ++ tailI)) (post.drop k) = true := by
      intro k hpf
      have hpos := pfx_headlit_pos _ _ k hpf
      exact absurd rfl (hpost lb (List.getElem?_mem hpos))
    have hmain : replaceAll (lit1I ++ (names ++ tailI))
        (lit1I ++ (names ++ (", useCallback".toList ++ tailI)))
        (pre ++ ((lit1I ++ (names ++ tailI)) ++ post)) =
        pre ++ ((lit1I ++ (names ++ (", useCallback".toList ++ tailI))) ++ post) := by
      rw [replaceAll_append_noocc _ _ pre _ hocc1]
      rw [replaceAll_fire _ _ post (by simp [lit1I])]
      rw [replaceAll_noocc _ _ post hocc3]
    have harg : (pre ++ (lit1I ++ (names ++ (tailI ++ post)))) =
        pre ++ ((lit1I ++ (names ++ tailI)) ++ post) := by
      simp [List.append_assoc]
    calc replaceAll (lit1I ++ names ++ tailI)
          (lit1I ++ names ++ (", useCallback".toList ++ tailI))
          (pre ++ (lit1I ++ (names ++ (tailI ++ post))))
        = replaceAll (lit1I ++ (names ++ tailI))
            (lit1I ++ (names ++ (", useCallback".toList ++ tailI)))
            (pre ++ ((lit1I ++ (names ++ tailI)) ++ post)) := by
          rw [harg, List.append_assoc, List.append_assoc]
      _ = pre ++ ((lit1I ++ (names ++ (", useCallback".toList ++ tailI))) ++ post) := hmain
      _ = pre ++ (lit1I ++ (names ++ (", useCallback".toList ++ (tailI ++ post)))) := by
          simp [List.append_assoc]
  · intro c h1 h2
    unfold add_use_callback_import
    rw [if_neg (by rw [h1]; exact Bool.false_ne_true)]
    simp only [h2]

/-- Witness for C10 (amended): a unique import line gets `, useCallback`
appended with the surrounding text untouched, and a text with no import
line is unchanged. -/
theorem C10_amended_witness :
    add_use_callback_import ("p;".toList ++ (lit1I ++ ("useState".toList ++
        (tailI ++ ([nl] ++ "q".toList))))) =
      "p;".toList ++ (lit1I ++ ("useState".toList ++
        (", useCallback".toList ++ (tailI ++ ([nl] ++ "q".toList))))) ∧
    add_use_callback_import ("no import here".toList) = "no import here".toList :=
  ⟨C10_amended_frame.1 ("p;".toList) ("useState".toList) ([nl] ++ "q".toList)
      (by decide) (by decide) (by decide) (by decide) (by decide) (by decide),
    C10_amended_frame.2 ("no import here".toList) (by decide) (by decide)⟩

end EslintFix
